import Mathlib

/-!
Verification of the hybrid web-extraction engine
(`src/lib/scraping/parser.ts`, `src/lib/scraping/hybrid-engine.ts`,
`src/lib/scraping/llm-extractor.ts`).

The JavaScript code is shallowly embedded: JS objects used as field maps
become association lists, JS values flowing through the pipeline become the
inductive type `Value`, numbers become `Rat`, async collaborator calls that
may reject become `Except`-valued inputs, and collaborator calls that are
documented (and implemented) never to reject become plain function inputs.
Wall-clock fields (processingTime, timestamp) are outside the embedding and
are elided from the records.
-/

namespace WebIntel

/-- JS values that flow through the extraction pipeline.  `null` stands for
both JS `null` and `undefined` (the code treats them identically at every
site: `value !== null && value !== undefined`, truthiness, member access on a
missing key).  `srcMap` encodes the `_extraction_sources` provenance object
`{parser, llm, hybrid}` injected by `mergeResults`. -/
inductive Value where
  | null : Value
  | str : String → Value
  | strList : List String → Value
  | num : Rat → Value
  | srcMap : List String → List String → List String → Value
deriving DecidableEq, Repr

/-- JS truthiness on `Value`: `null`/`undefined`, the empty string and the
number 0 are falsy; arrays and objects are always truthy. -/
def Value.truthy : Value → Bool
  | .null => false
  | .str s => !s.data.isEmpty
  | .strList _ => true
  | .num n => n != 0
  | .srcMap _ _ _ => true

/-- JS `typeof v === "string"`. -/
def Value.isStr : Value → Bool
  | .str _ => true
  | _ => false

/-- JS `.length` of a string value (only queried after an `isStr` check in
the source, so the non-string result is irrelevant). -/
def Value.strLength : Value → Nat
  | .str s => s.data.length
  | _ => 0

/-- A JS object used as a field map: ordered association list.  JS objects
have unique keys; lookups below read the first matching entry so the
definitions are also meaningful on lists with duplicated keys. -/
abbrev FieldMap := List (String × Value)

/-- JS member read `m[k]`: a missing key reads as `undefined`, which this
embedding folds into `Value.null`. -/
def getVal (m : FieldMap) (k : String) : Value :=
  match m.find? (fun p => p.1 == k) with
  | some p => p.2
  | none => .null

/-- Whether `k` is a key of `m` (JS `k in m` / `Object.keys` membership). -/
def hasKey (m : FieldMap) (k : String) : Bool :=
  m.any (fun p => p.1 == k)

/-- JS member write `m[k] = v`: updates the entry in place when the key
exists (keeping its position), otherwise appends the new entry. -/
def setVal (m : FieldMap) (k : String) (v : Value) : FieldMap :=
  if hasKey m k then m.map (fun p => if p.1 == k then (k, v) else p)
  else m ++ [(k, v)]

/-- JS `Object.keys(m)`: the keys in insertion order. -/
def keys (m : FieldMap) : List String := m.map Prod.fst

/-- Decides whether `pat` occurs as a contiguous substring of `hay`
(the semantics of JS `String.prototype.includes`). -/
def listContainsSub (pat : List Char) : List Char → Bool
  | [] => pat.isEmpty
  | c :: rest => pat.isPrefixOf (c :: rest) || listContainsSub pat rest

/-- JS `text.includes(pat)`. -/
def strIncludes (text pat : String) : Bool :=
  listContainsSub pat.data text.data

/-- JS `s.toLowerCase()` (ASCII case folding, which covers every keyword the
classifier compares against). -/
def jsToLower (s : String) : String := String.mk (s.data.map Char.toLower)

/-- JS `s.trim()`. -/
def jsTrim (s : String) : String :=
  String.mk (((s.data.dropWhile Char.isWhitespace).reverse.dropWhile
    Char.isWhitespace).reverse)

/-- JS `s.split("\n")`. -/
def jsSplitNl (s : String) : List String :=
  (s.data.splitOn '\n').map String.mk

/-- JS `s.isEmpty` check (`s === ""`, equivalently falsiness of a string). -/
def strIsEmpty (s : String) : Bool := s.data.isEmpty

/-! ### Result merger (`hybrid-engine.ts`, `mergeResults`) -/

/-- One iteration of the `Object.entries(llmData).forEach` loop in
`mergeResults`: the base entry is replaced when `!merged[key]` (falsy or
absent) or when it is a string of length `< 10`. -/
def mergeStep (m : FieldMap) (kv : String × Value) : FieldMap :=
  if !(getVal m kv.1).truthy ||
      ((getVal m kv.1).isStr && (getVal m kv.1).strLength < 10) then
    setVal m kv.1 kv.2
  else m

/-- The merging loop of `mergeResults` before provenance injection. -/
def mergeLoop (parserData llmData : FieldMap) : FieldMap :=
  llmData.foldl mergeStep parserData

/-- `mergeResults(parserData, llmData)`: merge loop, then injection of the
`_extraction_sources` provenance object.  Note the source computes
`hybrid: Object.keys(merged)` while evaluating the object literal, before
the assignment adds the `_extraction_sources` key itself. -/
def mergeResults (parserData llmData : FieldMap) : FieldMap :=
  let merged := mergeLoop parserData llmData
  setVal merged "_extraction_sources"
    (.srcMap (keys parserData) (keys llmData) (keys merged))

/-! ### LLM necessity decision (`hybrid-engine.ts`, `shouldUseLLM`) -/

/-- `ParsedContent` from `types.ts` restricted to the fields the modelled
functions read (`success`, `data`, `confidence`, `htmlContext`). -/
structure ParsedContent where
  success : Bool
  data : FieldMap
  confidence : Rat
  htmlContext : String
deriving DecidableEq, Repr

/-- The fixed reference field list in `shouldUseLLM`. -/
def requestedFields : List String :=
  ["price", "title", "description", "rating", "reviews", "address", "contact"]

/-- `shouldUseLLM(parserResult, instructions)`.  The optional instruction is
an `Option String`; JS `!instructions` is true both for `undefined` and for
the empty string. -/
def shouldUseLLM (parserResult : ParsedContent)
    (instructions : Option String) : Bool :=
  match instructions with
  | none => false
  | some instr =>
    if strIsEmpty instr then false
    else if parserResult.confidence < 1/2 then true
    else if !parserResult.success then true
    else
      let instructionKeywords := jsToLower instr
      let extractedFields :=
        jsToLower (String.intercalate " " (keys parserResult.data))
      let missingFields := requestedFields.filter (fun field =>
        strIncludes instructionKeywords field &&
        !strIncludes extractedFields field)
      missingFields.length > 0

/-! ### Confidence scorer (`parser.ts`, `calculateConfidence`) -/

/-- `ParserRule` from `types.ts`, restricted to the fields the text-based
extraction reads.  `selector` and `attr` metadata are never consulted by
`extractByRule`/`applyRules`/`calculateConfidence` and are elided.  The
`transform` callback may return any value or throw; a throwing callback is
modelled by `Except.error`. -/
structure ParserRule where
  name : String
  required : Bool := false
  multiple : Bool := false
  transform : Option (Value → Except String Value) := none

/-- `calculateConfidence(data, rules)`: 0.7 × required-field score plus
0.3 × field-coverage score. -/
def calculateConfidence (data : FieldMap) (rules : List ParserRule) : Rat :=
  let requiredRules := rules.filter (fun rule => rule.required)
  let foundRequired := requiredRules.filter (fun rule =>
    getVal data rule.name != Value.null)
  let totalFields := (keys data).length
  let requiredScore : Rat :=
    if requiredRules.length > 0 then
      (foundRequired.length : Rat) / (requiredRules.length : Rat)
    else 1
  let totalScore : Rat := (totalFields : Rat) / (rules.length : Rat)
  requiredScore * (7/10) + totalScore * (3/10)

/-! ### Default rule sets and category classifier (`parser.ts`) -/

/-- `defaultRules.ecommerce` (CSS selector strings elided: the text-based
extraction never reads them). -/
def ecommerceRules : List ParserRule :=
  [{ name := "title", required := true },
   { name := "price", required := true },
   { name := "description" },
   { name := "images", multiple := true },
   { name := "rating" },
   { name := "reviews", multiple := true }]

/-- `defaultRules.realestate`. -/
def realestateRules : List ParserRule :=
  [{ name := "address", required := true },
   { name := "price", required := true },
   { name := "bedrooms" },
   { name := "bathrooms" },
   { name := "sqft" },
   { name := "images", multiple := true }]

/-- `defaultRules.travel`. -/
def travelRules : List ParserRule :=
  [{ name := "destination", required := true },
   { name := "price", required := true },
   { name := "dates" },
   { name := "rating" },
   { name := "amenities", multiple := true }]

/-- `defaultRules.healthcare`. -/
def healthcareRules : List ParserRule :=
  [{ name := "drugName", required := true },
   { name := "price" },
   { name := "dosage" },
   { name := "manufacturer" },
   { name := "sideEffects", multiple := true }]

/-- `defaultRules.general`. -/
def generalRules : List ParserRule :=
  [{ name := "title" },
   { name := "content" },
   { name := "links", multiple := true },
   { name := "images", multiple := true }]

/-- `containsKeywords(text, keywords)`. -/
def containsKeywords (text : String) (keywords : List String) : Bool :=
  keywords.any (fun keyword => strIncludes text keyword)

/-- `detectRuleSet(url, content)`: keyword-based category classifier. -/
def detectRuleSet (url content : String) : List ParserRule :=
  let urlLower := jsToLower url
  let contentLower := jsToLower content
  if containsKeywords urlLower
        ["shop", "store", "product", "buy", "cart", "amazon", "ebay"] ||
      containsKeywords contentLower
        ["add to cart", "buy now", "price", "$", "product"] then
    ecommerceRules
  else if containsKeywords urlLower
        ["realtor", "zillow", "realty", "homes", "property"] ||
      containsKeywords contentLower
        ["bedrooms", "bathrooms", "sqft", "listing", "mls"] then
    realestateRules
  else if containsKeywords urlLower
        ["booking", "hotel", "flight", "travel", "expedia", "airbnb"] ||
      containsKeywords contentLower
        ["check-in", "check-out", "nights", "guests", "amenities"] then
    travelRules
  else if containsKeywords urlLower
        ["drug", "medication", "pharmacy", "health", "medical"] ||
      containsKeywords contentLower
        ["dosage", "side effects", "prescription", "mg", "tablet"] then
    healthcareRules
  else generalRules

/-! ### Rule-based field extraction (`parser.ts`) -/

/-- The page-extract object produced by the external fetch collaborator,
restricted to the components `applyRules`/`extractByRule` read.  The
defensive `extract.text || ""`, `extract.headings || []`, and
`extract.images || []` reads in the source are identities here because the
components are always present. -/
structure PageExtract where
  text : String
  headings : List String
  links : List String
  images : List String
deriving DecidableEq, Repr

/-- `extractTitle(text)`: first line with non-empty trim, trimmed; the
trailing `|| null` maps an empty trim to `null`. -/
def extractTitle (text : String) : Value :=
  let lines := (jsSplitNl text).filter (fun line => !strIsEmpty (jsTrim line))
  match lines.head? with
  | some l => if strIsEmpty (jsTrim l) then .null else .str (jsTrim l)
  | none => .null

/-- Greedy match of the price pattern `\$[\d,]+\.?\d*` at the head of the
character list, returning the matched characters and the rest.  Greedy
left-to-right matching coincides with the JS regex here because every part
after `[\d,]+` can match the empty string. -/
def priceMatchAt : List Char → Option (List Char × List Char)
  | '$' :: rest =>
    let ds := rest.takeWhile (fun c => c.isDigit || c == ',')
    let rest1 := rest.dropWhile (fun c => c.isDigit || c == ',')
    if ds.isEmpty then none
    else
      match rest1 with
      | '.' :: rest2 =>
        let ds2 := rest2.takeWhile Char.isDigit
        let rest3 := rest2.dropWhile Char.isDigit
        some ('$' :: ds ++ '.' :: ds2, rest3)
      | _ => some ('$' :: ds, rest1)
  | _ => none

/-- Global scan for `\$[\d,]+\.?\d*` (fuel-indexed; fuel = remaining length
suffices because every step consumes at least one character). -/
def scanPrices : Nat → List Char → List String
  | 0, _ => []
  | _ + 1, [] => []
  | fuel + 1, c :: rest =>
    match priceMatchAt (c :: rest) with
    | some (m, rest1) => String.mk m :: scanPrices fuel rest1
    | none => scanPrices fuel rest

/-- `extractPrices(text, multiple)`: `text.match(/\$[\d,]+\.?\d*\/g)`;
`null` when there is no match, otherwise all matches or the first. -/
def extractPrices (text : String) (multiple : Bool) : Value :=
  let found := scanPrices text.data.length text.data
  if found.isEmpty then .null
  else if multiple then .strList found
  else
    match found.head? with
    | some m => .str m
    | none => .null

/-- `extractDescription(text)`: keeps lines whose trimmed length exceeds 50
characters, returns the first one trimmed (the trailing `|| null` maps an
empty trim to `null`, though the filter already rules that out). -/
def extractDescription (text : String) : Value :=
  let lines := (jsSplitNl text).filter (fun line => (jsTrim line).data.length > 50)
  match lines.head? with
  | some l => if strIsEmpty (jsTrim l) then .null else .str (jsTrim l)
  | none => .null

/-- Case-insensitive literal match at the head of the character list,
returning the consumed original characters and the rest. -/
def litMatch : List Char → List Char → Option (List Char × List Char)
  | [], cs => some ([], cs)
  | _ :: _, [] => none
  | l :: ls, c :: cs =>
    if c.toLower == l.toLower then
      match litMatch ls cs with
      | some (consumed, rest) => some (c :: consumed, rest)
      | none => none
    else none

/-- Match `\d+\.?\d*` at the head of the character list (greedy). -/
def numMatch (cs : List Char) : Option (List Char × List Char) :=
  let ds := cs.takeWhile Char.isDigit
  let r1 := cs.dropWhile Char.isDigit
  if ds.isEmpty then none
  else
    match r1 with
    | '.' :: r2 =>
      let ds2 := r2.takeWhile Char.isDigit
      let r3 := r2.dropWhile Char.isDigit
      some (ds ++ '.' :: ds2, r3)
    | _ => some (ds, r1)

/-- First alternative of the rating regex:
`(\d+\.?\d*)\s*(?:out of|\/)\s*(\d+)` (case-insensitive). -/
def ratingAlt1 (cs : List Char) : Option (List Char) :=
  match numMatch cs with
  | none => none
  | some (m1, r1) =>
    let sp1 := r1.takeWhile Char.isWhitespace
    let r2 := r1.dropWhile Char.isWhitespace
    match (litMatch "out of".data r2).orElse (fun _ => litMatch "/".data r2) with
    | none => none
    | some (lit, r3) =>
      let sp2 := r3.takeWhile Char.isWhitespace
      let r4 := r3.dropWhile Char.isWhitespace
      let ds := r4.takeWhile Char.isDigit
      if ds.isEmpty then none
      else some (m1 ++ sp1 ++ lit ++ sp2 ++ ds)

/-- Second alternative of the rating regex: `(\d+\.?\d*)\s*stars?`
(case-insensitive). -/
def ratingAlt2 (cs : List Char) : Option (List Char) :=
  match numMatch cs with
  | none => none
  | some (m1, r1) =>
    let sp1 := r1.takeWhile Char.isWhitespace
    let r2 := r1.dropWhile Char.isWhitespace
    match litMatch "star".data r2 with
    | none => none
    | some (lit, r3) =>
      match r3 with
      | c :: _ =>
        if c.toLower == 's' then some (m1 ++ sp1 ++ lit ++ [c])
        else some (m1 ++ sp1 ++ lit)
      | [] => some (m1 ++ sp1 ++ lit)

/-- Leftmost match of the rating regex (fuel-indexed scan; at each position
alternative 1 is tried before alternative 2, as in JS alternation). -/
def findRating : Nat → List Char → Option String
  | 0, _ => none
  | _ + 1, [] => none
  | fuel + 1, c :: rest =>
    match ratingAlt1 (c :: rest) with
    | some m => some (String.mk m)
    | none =>
      match ratingAlt2 (c :: rest) with
      | some m => some (String.mk m)
      | none => findRating fuel rest

/-- `extractRating(text)`: `text.match(ratingRegex)` and `match[0]`, or
`null`. -/
def extractRating (text : String) : Value :=
  match findRating text.data.length text.data with
  | some m => .str m
  | none => .null

/-- `extractGenericField(text, fieldName, multiple)`: lines whose lower-cased
content contains the lower-cased field name.  Note the single-value branch
returns `relevantLines[0]?.trim()` with no `|| null`, so an all-whitespace
matching line yields the empty string, not `null`. -/
def extractGenericField (text fieldName : String) (multiple : Bool) : Value :=
  let lines := jsSplitNl text
  let relevantLines := lines.filter (fun line =>
    strIncludes (jsToLower line) (jsToLower fieldName))
  if relevantLines.isEmpty then .null
  else if multiple then .strList relevantLines
  else
    match relevantLines.head? with
    | some l => .str (jsTrim l)
    | none => .null

/-- `extractByRule(rule, text, headings, extract)`: dispatch on the rule
name.  The title branch is `headings[0] || extractTitle(text)` — only the
first heading is consulted, and only when it is truthy (non-empty). -/
def extractByRule (rule : ParserRule) (text : String) (headings : List String)
    (extract : PageExtract) : Value :=
  if rule.name = "title" then
    match headings.head? with
    | some h => if !strIsEmpty h then .str h else extractTitle text
    | none => extractTitle text
  else if rule.name = "price" then extractPrices text rule.multiple
  else if rule.name = "description" then extractDescription text
  else if rule.name = "rating" then extractRating text
  else if rule.name = "images" then .strList extract.images
  else if rule.name = "links" then .strList extract.links
  else extractGenericField text rule.name rule.multiple

/-- The body of one iteration of the `applyRules` loop up to the insertion
check: extraction, then the optional `transform` callback, which runs only
on a truthy value and whose exception is modelled by `Except.error`. -/
def applyRuleResult (rule : ParserRule) (extract : PageExtract) :
    Except String Value :=
  let value := extractByRule rule extract.text extract.headings extract
  if value.truthy then
    match rule.transform with
    | some t => t value
    | none => Except.ok value
  else Except.ok value

/-- One loop iteration of `applyRules`: an exception (caught by the
per-rule `try`) or a `null`/`undefined` value leaves the accumulated map
unchanged; any other value is written under the rule name. -/
def applyRulesStep (extract : PageExtract) (result : FieldMap)
    (rule : ParserRule) : FieldMap :=
  match applyRuleResult rule extract with
  | Except.error _ => result
  | Except.ok value =>
    if value != Value.null then setVal result rule.name value else result

/-- `applyRules(extract, rules)`: every rule is evaluated inside its own
`try`, independently of the others. -/
def applyRules (extract : PageExtract) (rules : List ParserRule) : FieldMap :=
  rules.foldl (applyRulesStep extract) []

/-! ### Orchestration (`hybrid-engine.ts`)

The async collaborator `blink.data.scrape` may reject; it enters the
embedding as an `Except String` input.  `LLMExtractor.extractWithFallback`
and `LLMExtractor.generateExtractionSummary` catch every collaborator
failure internally (`llm-extractor.ts`) and never reject, so they enter as
plain function inputs. -/

/-- The `extractionSource` tag of a per-URL result, including the `failed`
tag produced by the `processUrl` catch handler. -/
inductive ExtractionSource where
  | parser | llm | hybrid | failed
deriving DecidableEq, Repr

/-- `ScrapedData` from `types.ts`, restricted to the claim-relevant fields;
wall-clock `processingTime` and `timestamp` are elided. -/
structure ScrapedData where
  url : String
  content : FieldMap
  source : ExtractionSource
  htmlContext : Option String
  explanation : Option String
deriving DecidableEq, Repr

/-- `LLMExtractionResult` from `llm-extractor.ts`, restricted to the fields
the engine reads. -/
structure LLMExtractionResult where
  data : FieldMap
  confidence : Rat
  explanation : String
deriving DecidableEq, Repr

/-- `hybridExtraction(url, parserResult, instructions)`.  The `scrape` input
is the `blink.data.scrape(url)` call, yielding `(markdown, extract.text)`;
its rejection is the only way into the catch branch, which degrades to the
parser result. -/
def hybridExtraction (url : String) (parserResult : ParsedContent)
    (instructions : String)
    (scrape : Except String (String × String))
    (extractWithFallback : String → String → String → LLMExtractionResult)
    (generateSummary : FieldMap → String → String → String) : ScrapedData :=
  match scrape with
  | Except.error _ =>
    { url := url
      content := parserResult.data
      source := ExtractionSource.parser
      htmlContext := some parserResult.htmlContext
      explanation := some "Hybrid extraction failed, using parser results" }
  | Except.ok (markdown, extractText) =>
    let llmResult :=
      extractWithFallback (markdown ++ "\n\n" ++ extractText) instructions url
    let mergedData := mergeResults parserResult.data llmResult.data
    let explanation := generateSummary mergedData instructions url
    { url := url
      content := mergedData
      source := ExtractionSource.hybrid
      htmlContext := some parserResult.htmlContext
      explanation := some ("Hybrid extraction: " ++ explanation) }

/-- `llmOnlyExtraction(url, instructions)`: a scrape failure is rethrown as
`"LLM extraction failed: ..."` and escapes to the caller. -/
def llmOnlyExtraction (url instructions : String)
    (scrape : Except String (String × String))
    (extractWithFallback : String → String → String → LLMExtractionResult) :
    Except String ScrapedData :=
  match scrape with
  | Except.error e => Except.error ("LLM extraction failed: " ++ e)
  | Except.ok (markdown, extractText) =>
    let llmResult :=
      extractWithFallback (markdown ++ "\n\n" ++ extractText) instructions url
    Except.ok
      { url := url
        content := llmResult.data
        source := ExtractionSource.llm
        htmlContext := none
        explanation := some llmResult.explanation }

/-- JS `x || d` for an optional string: `undefined` and the empty string
both fall back to the default. -/
def jsOrStr (o : Option String) (d : String) : String :=
  match o with
  | some s => if strIsEmpty s then d else s
  | none => d

/-- Truthiness of an optional JS string (`undefined` and `""` are falsy). -/
def instrTruthy (o : Option String) : Bool :=
  match o with
  | some s => !strIsEmpty s
  | none => false

/-- Steps 4 and 5 of `processUrl` (parser-good-enough check, else the
LLM-only fallback whose exception the surrounding catch converts into a
`failed` result with empty content). -/
def processUrlTail (url : String) (parserResult : ParsedContent)
    (instructions : Option String)
    (scrape : Except String (String × String))
    (extractWithFallback : String → String → String → LLMExtractionResult) :
    ScrapedData :=
  if parserResult.success && parserResult.confidence > 3/5 then
    { url := url
      content := parserResult.data
      source := ExtractionSource.parser
      htmlContext := some parserResult.htmlContext
      explanation := none }
  else
    match llmOnlyExtraction url (jsOrStr instructions "Extract all relevant data")
        scrape extractWithFallback with
    | Except.ok result => result
    | Except.error e =>
      { url := url
        content := []
        source := ExtractionSource.failed
        htmlContext := none
        explanation := some e }

/-- `processUrl(url, job)` after the rule-based pass: the LLM necessity
decision routes to hybrid extraction (when instructions are truthy), the
parser-only acceptance, or the LLM-only fallback. -/
def processUrl (url : String) (parserResult : ParsedContent)
    (instructions : Option String)
    (scrape : Except String (String × String))
    (extractWithFallback : String → String → String → LLMExtractionResult)
    (generateSummary : FieldMap → String → String → String) : ScrapedData :=
  let needsLLM := shouldUseLLM parserResult instructions
  if needsLLM && instrTruthy instructions then
    hybridExtraction url parserResult (jsOrStr instructions "") scrape
      extractWithFallback generateSummary
  else
    processUrlTail url parserResult instructions scrape extractWithFallback

/-! ### URL expansion (`expandUrls` and `handlePagination`) -/

/-- The pagination-link test `/page|next|more|\d+/.test(link.toLowerCase())`
(`\d` is unaffected by lower-casing). -/
def paginationLike (link : String) : Bool :=
  let l := jsToLower link
  strIncludes l "page" || strIncludes l "next" || strIncludes l "more" ||
    l.data.any Char.isDigit

/-- `handlePagination(url, maxPages)`: the scrape of `url` yields the page
links; a scrape failure is caught internally and yields `[url]`.  The
callers always pass `maxPages ≥ 1` (through `|| 10`), so truncated `Nat`
subtraction in `maxPages - 1` agrees with the JS `slice(0, maxPages - 1)`. -/
def handlePagination (scrapeLinks : Except String (List String))
    (url : String) (maxPages : Nat) : List String :=
  match scrapeLinks with
  | Except.ok links =>
    url :: (links.filter paginationLike).take (maxPages - 1)
  | Except.error _ => [url]

/-- JS `x || d` for an optional number: `undefined` and the number 0 both
fall back to the default. -/
def jsOrNat (o : Option Nat) (d : Nat) : Nat :=
  match o with
  | some n => if n == 0 then d else n
  | none => d

/-- JS `[...new Set(list)]`: deduplication keeping the first occurrence of
each element, in order. -/
def dedupFirst (l : List String) : List String :=
  l.foldl (fun acc x => if x ∈ acc then acc else acc ++ [x]) []

/-- `expandUrls(targetUrls)`: per target URL, the URL itself plus (when
pagination is on) its pagination links minus the leading original, then
deduplication and truncation to `maxPages || 50`.  `handlePagination` never
throws, so the `try`/`catch` around it has no extra behaviour to model. -/
def expandUrls (followPagination : Bool) (maxPages : Option Nat)
    (scrapeLinks : String → Except String (List String))
    (targetUrls : List String) : List String :=
  let allUrls := targetUrls.foldl (fun acc url =>
    let acc1 := acc ++ [url]
    if followPagination then
      acc1 ++ (handlePagination (scrapeLinks url) url (jsOrNat maxPages 10)).drop 1
    else acc1) []
  (dedupFirst allUrls).take (jsOrNat maxPages 50)

/-! ### Field-map lemmas -/

theorem hasKey_false_iff (m : FieldMap) (k : String) :
    hasKey m k = false ↔ ∀ p ∈ m, p.1 ≠ k := by
  simp [hasKey, List.any_eq_false]

theorem hasKey_iff_mem_keys (m : FieldMap) (k : String) :
    hasKey m k = true ↔ k ∈ keys m := by
  simp [hasKey, keys, List.any_eq_true]

theorem getVal_cons (a : String) (v : Value) (m : FieldMap) (k : String) :
    getVal ((a, v) :: m) k = if a == k then v else getVal m k := by
  simp only [getVal, List.find?_cons]
  cases h : (a == k) <;> simp [h]

theorem getVal_eq_null_of_hasKey_false (m : FieldMap) (k : String)
    (h : hasKey m k = false) : getVal m k = .null := by
  induction m with
  | nil => rfl
  | cons p rest ih =>
    rw [hasKey_false_iff] at h
    have h1 : ¬(p.1 == k) = true := by
      simp only [beq_iff_eq]
      exact h p (List.mem_cons_self p rest)
    obtain ⟨a, b⟩ := p
    rw [getVal_cons]
    simp only [Bool.not_eq_true] at h1
    rw [h1]
    simp only [if_false, Bool.false_eq_true]
    exact ih ((hasKey_false_iff rest k).mpr fun q hq => h q (List.mem_cons_of_mem _ hq))

theorem getVal_append_right (m l : FieldMap) (k : String)
    (h : hasKey m k = false) : getVal (m ++ l) k = getVal l k := by
  induction m with
  | nil => rfl
  | cons p rest ih =>
    rw [hasKey_false_iff] at h
    have h1 : (p.1 == k) = false := by
      simp only [beq_eq_false_iff_ne]
      exact h p (List.mem_cons_self p rest)
    obtain ⟨a, b⟩ := p
    rw [List.cons_append, getVal_cons, h1]
    simp only [Bool.false_eq_true, if_false]
    exact ih ((hasKey_false_iff rest k).mpr fun q hq => h q (List.mem_cons_of_mem _ hq))

theorem getVal_append_left (m l : FieldMap) (k : String)
    (h : hasKey m k = true) : getVal (m ++ l) k = getVal m k := by
  induction m with
  | nil => simp [hasKey] at h
  | cons p rest ih =>
    obtain ⟨a, b⟩ := p
    rw [List.cons_append, getVal_cons, getVal_cons]
    cases h1 : (a == k) with
    | true => simp
    | false =>
      simp only [Bool.false_eq_true, if_false]
      apply ih
      simp only [hasKey, List.any_cons, h1, Bool.false_or] at h
      exact h

theorem getVal_map_update_self (m : FieldMap) (k : String) (v : Value)
    (h : hasKey m k = true) :
    getVal (m.map (fun p => if p.1 == k then (k, v) else p)) k = v := by
  induction m with
  | nil => simp [hasKey] at h
  | cons p rest ih =>
    obtain ⟨a, b⟩ := p
    rw [List.map_cons]
    cases h1 : (a == k) with
    | true =>
      simp only [h1, if_true]
      rw [getVal_cons]
      simp
    | false =>
      simp only [h1, Bool.false_eq_true, if_false]
      rw [getVal_cons, h1]
      simp only [Bool.false_eq_true, if_false]
      apply ih
      simp only [hasKey, List.any_cons, h1, Bool.false_or] at h
      exact h

theorem getVal_map_update_ne (m : FieldMap) (k : String) (v : Value)
    (k' : String) (h : k' ≠ k) :
    getVal (m.map (fun p => if p.1 == k then (k, v) else p)) k' = getVal m k' := by
  induction m with
  | nil => rfl
  | cons p rest ih =>
    obtain ⟨a, b⟩ := p
    rw [List.map_cons]
    cases h1 : (a == k) with
    | true =>
      have hak : a = k := by simpa using h1
      simp only [h1, if_true]
      rw [getVal_cons, getVal_cons]
      have hkk' : (k == k') = false := by
        simp only [beq_eq_false_iff_ne]
        exact fun hc => h hc.symm
      have hak' : (a == k') = false := by
        simp only [beq_eq_false_iff_ne]
        exact fun hc => h (hak ▸ hc).symm
      rw [hkk', hak']
      simp only [Bool.false_eq_true, if_false]
      exact ih
    | false =>
      simp only [h1, Bool.false_eq_true, if_false]
      rw [getVal_cons, getVal_cons]
      cases h2 : (a == k') <;> simp only [h2, if_true, Bool.false_eq_true, if_false]
      exact ih

theorem getVal_setVal_self (m : FieldMap) (k : String) (v : Value) :
    getVal (setVal m k v) k = v := by
  unfold setVal
  cases h : hasKey m k with
  | true => simp only [if_true]; exact getVal_map_update_self m k v h
  | false =>
    simp only [Bool.false_eq_true, if_false]
    rw [getVal_append_right _ _ _ h, getVal_cons]
    simp

theorem getVal_setVal_ne (m : FieldMap) (k : String) (v : Value) (k' : String)
    (h : k' ≠ k) : getVal (setVal m k v) k' = getVal m k' := by
  unfold setVal
  cases hk : hasKey m k with
  | true => simp only [if_true]; exact getVal_map_update_ne m k v k' h
  | false =>
    simp only [Bool.false_eq_true, if_false]
    cases hk' : hasKey m k' with
    | true => exact getVal_append_left _ _ _ hk'
    | false =>
      rw [getVal_append_right _ _ _ hk', getVal_cons,
        getVal_eq_null_of_hasKey_false _ _ hk']
      have : (k == k') = false := by
        simp only [beq_eq_false_iff_ne]
        exact fun hc => h hc.symm
      rw [this]
      rfl

theorem keys_map_update (m : FieldMap) (k : String) (v : Value) :
    keys (m.map (fun p => if p.1 == k then (k, v) else p)) = keys m := by
  induction m with
  | nil => rfl
  | cons p rest ih =>
    obtain ⟨a, b⟩ := p
    rw [List.map_cons]
    cases h1 : (a == k) with
    | true =>
      have hak : a = k := by simpa using h1
      subst hak
      simp only [h1, if_true, keys, List.map_cons]
      simpa [keys] using ih
    | false =>
      simp only [h1, Bool.false_eq_true, if_false, keys, List.map_cons]
      simpa [keys] using ih

theorem keys_setVal (m : FieldMap) (k : String) (v : Value) :
    keys (setVal m k v) = if hasKey m k then keys m else keys m ++ [k] := by
  unfold setVal
  cases h : hasKey m k with
  | true => simp only [if_true]; exact keys_map_update m k v
  | false =>
    simp only [Bool.false_eq_true, if_false, keys, List.map_append, List.map_cons,
      List.map_nil]

/-! ### Merge-loop lemmas -/

/-- The overwrite condition of the merge loop, on the current base value at
the key: `!merged[key] || (typeof merged[key] === "string" &&
merged[key].length < 10)`. -/
def overwriteCond (v : Value) : Bool :=
  !v.truthy || (v.isStr && v.strLength < 10)

theorem mergeStep_eq (m : FieldMap) (kv : String × Value) :
    mergeStep m kv =
      if overwriteCond (getVal m kv.1) then setVal m kv.1 kv.2 else m := rfl

theorem getVal_mergeStep_ne (m : FieldMap) (kv : String × Value) (k : String)
    (h : k ≠ kv.1) : getVal (mergeStep m kv) k = getVal m k := by
  rw [mergeStep_eq]
  cases hc : overwriteCond (getVal m kv.1) with
  | true => simp only [if_true]; exact getVal_setVal_ne m kv.1 kv.2 k h
  | false => simp

theorem getVal_mergeLoop_notin (l : List (String × Value)) (m : FieldMap)
    (k : String) (h : k ∉ keys l) : getVal (mergeLoop m l) k = getVal m k := by
  induction l generalizing m with
  | nil => rfl
  | cons kv rest ih =>
    rw [show keys (kv :: rest) = kv.1 :: keys rest from rfl] at h
    have h1 : k ≠ kv.1 := fun hc => h (hc ▸ List.mem_cons_self _ _)
    have h2 : k ∉ keys rest := fun hc => h (List.mem_cons_of_mem _ hc)
    have step : mergeLoop m (kv :: rest) = mergeLoop (mergeStep m kv) rest := rfl
    rw [step, ih (mergeStep m kv) h2]
    exact getVal_mergeStep_ne m kv k h1

theorem getVal_mergeLoop_mem (l : List (String × Value)) (m : FieldMap)
    (k : String) (v : Value) (hnd : (keys l).Nodup) (hmem : (k, v) ∈ l) :
    getVal (mergeLoop m l) k =
      if overwriteCond (getVal m k) then v else getVal m k := by
  induction l generalizing m with
  | nil => simp at hmem
  | cons kv rest ih =>
    obtain ⟨k1, v1⟩ := kv
    simp only [keys, List.map_cons, List.nodup_cons] at hnd
    have step : mergeLoop m ((k1, v1) :: rest) = mergeLoop (mergeStep m (k1, v1)) rest := rfl
    rcases List.mem_cons.mp hmem with heq | hrest
    · injection heq with hk hv
      subst hk; subst hv
      rw [step, getVal_mergeLoop_notin rest _ k (by simpa [keys] using hnd.1)]
      rw [mergeStep_eq]
      cases hc : overwriteCond (getVal m k) with
      | true => simp only [if_true]; exact getVal_setVal_self m k v
      | false => simp
    · have hk1 : k ≠ k1 := by
        intro hc
        subst hc
        exact hnd.1 (List.mem_map_of_mem Prod.fst hrest)
      rw [step, ih (mergeStep m (k1, v1)) (by simpa [keys] using hnd.2) hrest,
        getVal_mergeStep_ne m (k1, v1) k hk1]

theorem keys_mergeLoop_subset (l : List (String × Value)) (m : FieldMap)
    (k : String) (h : k ∈ keys (mergeLoop m l)) : k ∈ keys m ∨ k ∈ keys l := by
  induction l generalizing m with
  | nil => exact Or.inl h
  | cons kv rest ih =>
    have step : mergeLoop m (kv :: rest) = mergeLoop (mergeStep m kv) rest := rfl
    have hkeys : keys (kv :: rest) = kv.1 :: keys rest := rfl
    rw [step] at h
    rcases ih (mergeStep m kv) h with hm | hr
    · rw [mergeStep_eq] at hm
      by_cases hc : overwriteCond (getVal m kv.1) = true
      · rw [if_pos hc, keys_setVal] at hm
        by_cases hk : hasKey m kv.1 = true
        · rw [if_pos hk] at hm; exact Or.inl hm
        · rw [if_neg hk] at hm
          rcases List.mem_append.mp hm with h1 | h2
          · exact Or.inl h1
          · have hkk : k = kv.1 := List.mem_singleton.mp h2
            rw [hkeys, hkk]
            exact Or.inr (List.mem_cons_self _ _)
      · rw [if_neg hc] at hm; exact Or.inl hm
    · rw [hkeys]
      exact Or.inr (List.mem_cons_of_mem _ hr)

theorem mergeResults_eq (p l : FieldMap) :
    mergeResults p l =
      setVal (mergeLoop p l) "_extraction_sources"
        (.srcMap (keys p) (keys l) (keys (mergeLoop p l))) := rfl

theorem hasKey_mergeLoop_false (p l : FieldMap) (k : String)
    (hp : k ∉ keys p) (hq : k ∉ keys l) :
    hasKey (mergeLoop p l) k = false := by
  cases h : hasKey (mergeLoop p l) k with
  | false => rfl
  | true =>
    rcases keys_mergeLoop_subset l p k ((hasKey_iff_mem_keys _ _).mp h) with hc | hc
    · exact absurd hc hp
    · exact absurd hc hq

/-- C1 (counterexample): the merge loop tests JS truthiness
(`!merged[key]`), not key presence, so a base entry holding the falsy
non-string value `0` is overwritten by the LLM value even though the base
has the key and its value is not a short string — contradicting "the LLM
value never overwrites a non-string value". -/
theorem merge_overwrites_falsy_nonstring :
    hasKey [("a", Value.num 0)] "a" = true ∧
    Value.isStr (getVal [("a", Value.num 0)] "a") = false ∧
    getVal (mergeResults [("a", Value.num 0)] [("a", Value.str "llm-value")]) "a"
      = Value.str "llm-value" := by decide

/-- C1 (amended): the merged result starts from a copy of the parser map;
an LLM entry `(k, v)` overwrites the base at `k` iff the base value at `k`
is falsy (missing key, empty string, or the number 0) or is a string
shorter than 10 characters; every key absent from the LLM map keeps its
parser value. -/
theorem merge_precedence_semantics (parserData llmData : FieldMap)
    (hl : (keys llmData).Nodup)
    (hq : "_extraction_sources" ∉ keys llmData) :
    (∀ k v, (k, v) ∈ llmData →
      getVal (mergeResults parserData llmData) k =
        if overwriteCond (getVal parserData k) then v
        else getVal parserData k) ∧
    (∀ k, k ∉ keys llmData → k ≠ "_extraction_sources" →
      getVal (mergeResults parserData llmData) k = getVal parserData k) := by
  constructor
  · intro k v hm
    have hk : k ≠ "_extraction_sources" := by
      intro hc
      subst hc
      exact hq (List.mem_map_of_mem Prod.fst hm)
    rw [mergeResults_eq, getVal_setVal_ne _ _ _ _ hk]
    exact getVal_mergeLoop_mem llmData parserData k v hl hm
  · intro k hk hkr
    rw [mergeResults_eq, getVal_setVal_ne _ _ _ _ hkr]
    exact getVal_mergeLoop_notin llmData parserData k hk

/-- The parser field map of the merge-precedence scenario in the spec. -/
def parserMapW : FieldMap :=
  [("a", Value.str "short"),
   ("b", Value.str "a sufficiently long value over ten chars")]

/-- The LLM field map of the merge-precedence scenario in the spec. -/
def llmMapW : FieldMap :=
  [("a", Value.str "llm-a"), ("b", Value.str "llm-b"), ("c", Value.str "llm-c")]

/-- C1 (witness): the merge-precedence scenario — short string replaced,
long string kept, new key added. -/
theorem merge_precedence_semantics_witness :
    getVal (mergeResults parserMapW llmMapW) "a" = Value.str "llm-a" ∧
    getVal (mergeResults parserMapW llmMapW) "b" =
      Value.str "a sufficiently long value over ten chars" ∧
    getVal (mergeResults parserMapW llmMapW) "c" = Value.str "llm-c" := by
  have h := merge_precedence_semantics parserMapW llmMapW (by decide) (by decide)
  refine ⟨?_, ?_, ?_⟩
  · have h1 := h.1 "a" (Value.str "llm-a") (by decide)
    rwa [if_pos (by decide : overwriteCond (getVal parserMapW "a") = true)] at h1
  · have h1 := h.1 "b" (Value.str "llm-b") (by decide)
    rw [if_neg (by decide : ¬overwriteCond (getVal parserMapW "b") = true)] at h1
    exact h1.trans (by decide)
  · have h1 := h.1 "c" (Value.str "llm-c") (by decide)
    rwa [if_pos (by decide : overwriteCond (getVal parserMapW "c") = true)] at h1

/-- C7 (counterexample): with empty inputs the final merged map has exactly
the key `_extraction_sources`, while the recorded `hybrid` key list is
empty — the `hybrid` list is the key set before the provenance entry is
injected, not the key set of the final merged map. -/
theorem provenance_hybrid_not_final_keys :
    getVal (mergeResults [] []) "_extraction_sources" = Value.srcMap [] [] [] ∧
    keys (mergeResults [] []) = ["_extraction_sources"] ∧
    ([] : List String) ≠ ["_extraction_sources"] := by decide

/-- C7 (amended): after a merge with inputs free of the reserved key, the
injected `_extraction_sources` value records the original parser keys, the
original LLM keys, and the keys of the merged map just before the injection;
the final key set is that list plus `_extraction_sources` itself. -/
theorem provenance_sources_semantics (parserData llmData : FieldMap)
    (hp : "_extraction_sources" ∉ keys parserData)
    (hq : "_extraction_sources" ∉ keys llmData) :
    getVal (mergeResults parserData llmData) "_extraction_sources" =
      Value.srcMap (keys parserData) (keys llmData)
        (keys (mergeLoop parserData llmData)) ∧
    keys (mergeResults parserData llmData) =
      keys (mergeLoop parserData llmData) ++ ["_extraction_sources"] := by
  have hnot := hasKey_mergeLoop_false parserData llmData "_extraction_sources" hp hq
  constructor
  · rw [mergeResults_eq]
    exact getVal_setVal_self _ _ _
  · rw [mergeResults_eq, keys_setVal, if_neg (by simp [hnot])]

/-- C7 (witness): the provenance record on the concrete merge scenario. -/
theorem provenance_sources_semantics_witness :
    getVal (mergeResults parserMapW llmMapW) "_extraction_sources" =
      Value.srcMap (keys parserMapW) (keys llmMapW)
        (keys (mergeLoop parserMapW llmMapW)) ∧
    keys (mergeResults parserMapW llmMapW) =
      keys (mergeLoop parserMapW llmMapW) ++ ["_extraction_sources"] :=
  provenance_sources_semantics parserMapW llmMapW (by decide) (by decide)

/-! ### Confidence scoring: spec-side definitions and lemmas -/

/-- Spec 4.3 wording: fraction of required rules whose field is present in
the FieldMap, defined as 1.0 when there are zero required rules. -/
def requiredScoreSpec (data : FieldMap) (rules : List ParserRule) : Rat :=
  if (rules.filter (fun rule => rule.required)).length = 0 then 1
  else (((rules.filter (fun rule => rule.required)).filter
      (fun rule => hasKey data rule.name)).length : Rat) /
    ((rules.filter (fun rule => rule.required)).length : Rat)

/-- Spec 4.3 wording: number of FieldMap keys divided by number of rules. -/
def coverageScoreSpec (data : FieldMap) (rules : List ParserRule) : Rat :=
  ((keys data).length : Rat) / (rules.length : Rat)

theorem calculateConfidence_eq (data : FieldMap) (rules : List ParserRule) :
    calculateConfidence data rules =
      (if (rules.filter (fun rule => rule.required)).length > 0 then
        (((rules.filter (fun rule => rule.required)).filter
          (fun rule => getVal data rule.name != Value.null)).length : Rat) /
          (((rules.filter (fun rule => rule.required)).length : Rat))
      else 1) * (7/10) +
      (((keys data).length : Rat) / ((rules.length : Rat))) * (3/10) := rfl

theorem getVal_ne_null_of_hasKey (data : FieldMap) (k : String)
    (hnn : ∀ p ∈ data, p.2 ≠ Value.null) (h : hasKey data k = true) :
    getVal data k ≠ Value.null := by
  induction data with
  | nil => simp [hasKey] at h
  | cons p rest ih =>
    obtain ⟨a, b⟩ := p
    rw [getVal_cons]
    cases h1 : (a == k) with
    | true =>
      simp only [if_true]
      exact hnn (a, b) (List.mem_cons_self _ _)
    | false =>
      simp only [Bool.false_eq_true, if_false]
      apply ih (fun q hq => hnn q (List.mem_cons_of_mem _ hq))
      simp only [hasKey, List.any_cons, h1, Bool.false_or] at h
      exact h

theorem presence_filter_congr (data : FieldMap) (req : List ParserRule)
    (hnn : ∀ p ∈ data, p.2 ≠ Value.null) :
    req.filter (fun rule => getVal data rule.name != Value.null) =
    req.filter (fun rule => hasKey data rule.name) := by
  apply List.filter_congr
  intro r _
  cases hk : hasKey data r.name with
  | true =>
    simp [bne_iff_ne, getVal_ne_null_of_hasKey data r.name hnn hk]
  | false =>
    rw [getVal_eq_null_of_hasKey_false _ _ hk]
    decide

/-- C3 (counterexample): on an arbitrary FieldMap/RuleSet pair the claimed
bound fails — two keys against a single optional rule give confidence 1.3.
The bound needs the extractor invariant that the FieldMap keys are a subset
of the rule names. -/
theorem confidence_above_one :
    calculateConfidence [("a", Value.str "x"), ("b", Value.str "y")]
      [{ name := "c" }] = 13/10 ∧
    ¬(calculateConfidence [("a", Value.str "x"), ("b", Value.str "y")]
      [{ name := "c" }] ≤ 1) := by
  have h : calculateConfidence [("a", Value.str "x"), ("b", Value.str "y")]
      [{ name := "c" }] = 13/10 := by
    rw [calculateConfidence_eq]
    norm_num [List.filter, keys]
  refine ⟨h, ?_⟩
  rw [h]
  norm_num

/-- C3 (amended): for a nonempty rule set and a FieldMap with distinct,
null-free entries whose keys all name rules (the shape the extractor
produces), the confidence is `0.7 × requiredScore + 0.3 × coverageScore`
and lies in [0,1]; the computation is a pure function of its inputs. -/
theorem confidence_formula_and_range (data : FieldMap)
    (rules : List ParserRule)
    (hne : rules ≠ [])
    (hnodup : (keys data).Nodup)
    (hsub : ∀ k ∈ keys data, k ∈ rules.map ParserRule.name)
    (hnn : ∀ p ∈ data, p.2 ≠ Value.null) :
    calculateConfidence data rules =
      (7/10) * requiredScoreSpec data rules +
      (3/10) * coverageScoreSpec data rules ∧
    0 ≤ calculateConfidence data rules ∧
    calculateConfidence data rules ≤ 1 := by
  have hn : 0 < rules.length := List.length_pos.mpr hne
  have htf : (keys data).length ≤ rules.length := by
    have hsp : List.Subperm (keys data) (rules.map ParserRule.name) :=
      List.subperm_of_subset hnodup hsub
    simpa using hsp.length_le
  have hform : calculateConfidence data rules =
      requiredScoreSpec data rules * (7/10) +
      coverageScoreSpec data rules * (3/10) := by
    rw [calculateConfidence_eq,
      presence_filter_congr data (rules.filter (fun rule => rule.required)) hnn]
    unfold requiredScoreSpec coverageScoreSpec
    rcases Nat.eq_zero_or_pos (rules.filter (fun rule => rule.required)).length
      with h0 | hpos
    · rw [h0]
      norm_num
    · rw [if_pos hpos, if_neg (Nat.pos_iff_ne_zero.mp hpos)]
  have hrs0 : 0 ≤ requiredScoreSpec data rules := by
    unfold requiredScoreSpec
    rcases Nat.eq_zero_or_pos (rules.filter (fun rule => rule.required)).length
      with h0 | hpos
    · rw [h0]; norm_num
    · rw [if_neg (Nat.pos_iff_ne_zero.mp hpos)]
      exact div_nonneg (by positivity) (by positivity)
  have hrs1 : requiredScoreSpec data rules ≤ 1 := by
    unfold requiredScoreSpec
    rcases Nat.eq_zero_or_pos (rules.filter (fun rule => rule.required)).length
      with h0 | hpos
    · rw [h0]; norm_num
    · rw [if_neg (Nat.pos_iff_ne_zero.mp hpos),
        div_le_one (by exact_mod_cast hpos)]
      exact_mod_cast List.length_filter_le _ _
  have hcs0 : 0 ≤ coverageScoreSpec data rules :=
    div_nonneg (by positivity) (by positivity)
  have hcs1 : coverageScoreSpec data rules ≤ 1 := by
    unfold coverageScoreSpec
    rw [div_le_one (by exact_mod_cast hn)]
    exact_mod_cast htf
  refine ⟨by rw [hform]; ring, ?_, ?_⟩
  · rw [hform]; nlinarith
  · rw [hform]; nlinarith

/-- A concrete parser FieldMap for the confidence witness. -/
def dataW : FieldMap := [("title", Value.str "Widget"), ("price", Value.str "$5")]

/-- C3 (witness): formula and range on a concrete e-commerce extraction. -/
theorem confidence_formula_and_range_witness :
    calculateConfidence dataW ecommerceRules =
      (7/10) * requiredScoreSpec dataW ecommerceRules +
      (3/10) * coverageScoreSpec dataW ecommerceRules ∧
    0 ≤ calculateConfidence dataW ecommerceRules ∧
    calculateConfidence dataW ecommerceRules ≤ 1 :=
  confidence_formula_and_range dataW ecommerceRules
    (by unfold ecommerceRules; exact List.cons_ne_nil _ _)
    (by decide) (by decide) (by decide)

/-! ### Substring containment and the LLM necessity decision -/

theorem strIsEmpty_eq_false_of_ne (s : String) (h : s ≠ "") :
    strIsEmpty s = false := by
  cases s with
  | mk data =>
    cases data with
    | nil => exact absurd rfl h
    | cons c cs => rfl

theorem listContainsSub_iff (pat hay : List Char) :
    listContainsSub pat hay = true ↔ pat <:+: hay := by
  induction hay with
  | nil => simp [listContainsSub, List.infix_nil, List.isEmpty_iff]
  | cons c rest ih =>
    simp [listContainsSub, List.infix_cons_iff, ih,
      List.isPrefixOf_iff_prefix, Bool.or_eq_true]

theorem strIncludes_iff (text pat : String) :
    strIncludes text pat = true ↔ pat.data <:+: text.data :=
  listContainsSub_iff pat.data text.data

theorem strIncludes_eq_false_iff (text pat : String) :
    strIncludes text pat = false ↔ ¬pat.data <:+: text.data := by
  rw [← strIncludes_iff]
  cases h : strIncludes text pat <;> simp [h]

/-- C2: the LLM necessity decision — `false` with no instruction (JS
`!instructions` also treats the empty string as absent); with a nonempty
instruction, `true` whenever confidence is below 0.5 or the parse failed;
otherwise `true` iff some field of the fixed reference list occurs in the
lower-cased instruction but not as a substring of the joined lower-cased
extracted field names. -/
theorem llm_necessity_decision (pr : ParsedContent) :
    shouldUseLLM pr none = false ∧
    shouldUseLLM pr (some "") = false ∧
    (∀ instr : String, instr ≠ "" →
      ((pr.confidence < 1/2 ∨ pr.success = false) →
        shouldUseLLM pr (some instr) = true) ∧
      (1/2 ≤ pr.confidence → pr.success = true →
        (shouldUseLLM pr (some instr) = true ↔
          ∃ field ∈ requestedFields,
            field.data <:+: (jsToLower instr).data ∧
            ¬field.data <:+:
              (jsToLower (String.intercalate " " (keys pr.data))).data))) := by
  refine ⟨rfl, by simp [shouldUseLLM, strIsEmpty], ?_⟩
  intro instr hne
  have he : strIsEmpty instr = false := strIsEmpty_eq_false_of_ne instr hne
  constructor
  · intro h
    unfold shouldUseLLM
    simp only [he, Bool.false_eq_true, if_false]
    rcases h with hc | hs
    · rw [if_pos hc]
    · split_ifs <;> simp_all
  · intro hc hs
    have hnc : ¬(pr.confidence < 1/2) := not_lt.mpr hc
    unfold shouldUseLLM
    simp only [he, Bool.false_eq_true, if_false, if_neg hnc, hs,
      Bool.not_true, if_false]
    rw [decide_eq_true_iff, gt_iff_lt, List.length_pos_iff_exists_mem]
    constructor
    · rintro ⟨field, hf⟩
      obtain ⟨hmem, hp⟩ := List.mem_filter.mp hf
      have hp' : strIncludes (jsToLower instr) field = true ∧
          strIncludes (jsToLower (String.intercalate " " (keys pr.data)))
            field = false := by
        simpa using hp
      exact ⟨field, hmem, (strIncludes_iff _ _).mp hp'.1,
        (strIncludes_eq_false_iff _ _).mp hp'.2⟩
    · rintro ⟨field, hmem, h1, h2⟩
      refine ⟨field, List.mem_filter.mpr ⟨hmem, ?_⟩⟩
      have e1 := (strIncludes_iff (jsToLower instr) field).mpr h1
      have e2 := (strIncludes_eq_false_iff
        (jsToLower (String.intercalate " " (keys pr.data))) field).mpr h2
      simp [e1, e2]

/-- The parse outcome of the necessity-decision scenario in the spec:
title and price extracted, confidence 0.8, success. -/
def parseOutcomeW : ParsedContent :=
  { success := true
    data := [("title", Value.str "Widget Pro"), ("price", Value.str "$49.99")]
    confidence := 4/5
    htmlContext := "" }

/-- C2 (witness): instruction asking for reviews and contact info against a
parse that found only title and price triggers the LLM even at high
confidence; with no instruction the decision is false. -/
theorem llm_necessity_decision_witness :
    shouldUseLLM parseOutcomeW none = false ∧
    shouldUseLLM parseOutcomeW (some "get the reviews and contact info") = true := by
  have h := llm_necessity_decision parseOutcomeW
  refine ⟨h.1, ?_⟩
  have h2 := (h.2.2 "get the reviews and contact info" (by decide)).2
    (by norm_num [parseOutcomeW]) rfl
  rw [h2]
  refine ⟨"reviews", by decide, ?_, ?_⟩
  · exact (strIncludes_iff _ _).mp (by decide)
  · exact (strIncludes_eq_false_iff _ _).mp (by decide)

/-! ### Category classification -/

/-- Spec 4.1 wording: the e-commerce keyword signal — lower-cased URL
against the URL keyword list, or lower-cased content against the content
keyword list. -/
def ecommerceSignal (url content : String) : Bool :=
  containsKeywords (jsToLower url)
    ["shop", "store", "product", "buy", "cart", "amazon", "ebay"] ||
  containsKeywords (jsToLower content)
    ["add to cart", "buy now", "price", "$", "product"]

/-- Spec 4.1 wording: the real-estate keyword signal. -/
def realestateSignal (url content : String) : Bool :=
  containsKeywords (jsToLower url)
    ["realtor", "zillow", "realty", "homes", "property"] ||
  containsKeywords (jsToLower content)
    ["bedrooms", "bathrooms", "sqft", "listing", "mls"]

/-- Spec 4.1 wording: the travel keyword signal. -/
def travelSignal (url content : String) : Bool :=
  containsKeywords (jsToLower url)
    ["booking", "hotel", "flight", "travel", "expedia", "airbnb"] ||
  containsKeywords (jsToLower content)
    ["check-in", "check-out", "nights", "guests", "amenities"]

/-- Spec 4.1 wording: the healthcare keyword signal. -/
def healthcareSignal (url content : String) : Bool :=
  containsKeywords (jsToLower url)
    ["drug", "medication", "pharmacy", "health", "medical"] ||
  containsKeywords (jsToLower content)
    ["dosage", "side effects", "prescription", "mg", "tablet"]

/-- C5: the classifier is the first-match cascade over the four category
signals in the fixed priority order, with `general` as the fallback; the
result is always one of the five rule sets (never null), and as a pure
function it is trivially deterministic. -/
theorem category_classifier_cascade (url content : String) :
    detectRuleSet url content =
      (if ecommerceSignal url content then ecommerceRules
       else if realestateSignal url content then realestateRules
       else if travelSignal url content then travelRules
       else if healthcareSignal url content then healthcareRules
       else generalRules) ∧
    (detectRuleSet url content = ecommerceRules ∨
     detectRuleSet url content = realestateRules ∨
     detectRuleSet url content = travelRules ∨
     detectRuleSet url content = healthcareRules ∨
     detectRuleSet url content = generalRules) := by
  refine ⟨rfl, ?_⟩
  unfold detectRuleSet
  simp only []
  split_ifs <;> simp

/-- C9: any content whose lower-cased text contains one of the e-commerce
content keywords (notably a bare dollar sign) forces the e-commerce rule
set, regardless of the URL and of any other category signals. -/
theorem ecommerce_content_keyword_wins (url content : String)
    (h : containsKeywords (jsToLower content)
      ["add to cart", "buy now", "price", "$", "product"] = true) :
    detectRuleSet url content = ecommerceRules := by
  unfold detectRuleSet
  simp only []
  rw [h]
  simp

/-- C9 (witness): a page with overwhelming real-estate signals in both URL
and content is still classified e-commerce because the text contains a
dollar sign. -/
theorem ecommerce_content_keyword_wins_witness :
    containsKeywords (jsToLower "3 Bedrooms 2 Bathrooms MLS Listing $450,000 sqft")
      ["add to cart", "buy now", "price", "$", "product"] = true ∧
    detectRuleSet "https://www.zillow.com/homedetails/123-main"
      "3 Bedrooms 2 Bathrooms MLS Listing $450,000 sqft" = ecommerceRules :=
  ⟨by decide, ecommerce_content_keyword_wins _ _ (by decide)⟩

/-! ### Rule-evaluation independence -/

theorem mem_setVal (m : FieldMap) (k : String) (v : Value)
    (p : String × Value) (h : p ∈ setVal m k v) :
    p ∈ m ∨ (p.1 = k ∧ p.2 = v) := by
  unfold setVal at h
  by_cases hk : hasKey m k = true
  · rw [if_pos hk] at h
    obtain ⟨q, hq, he⟩ := List.mem_map.mp h
    by_cases hpk : (q.1 == k) = true
    · rw [if_pos hpk] at he
      right
      rw [← he]
      exact ⟨rfl, rfl⟩
    · rw [if_neg hpk] at he
      left
      exact he ▸ hq
  · rw [if_neg hk] at h
    rcases List.mem_append.mp h with h1 | h2
    · left; exact h1
    · right
      have he := List.mem_singleton.mp h2
      rw [he]
      exact ⟨rfl, rfl⟩

theorem applyRulesStep_error (extract : PageExtract) (acc : FieldMap)
    (r : ParserRule) (e : String)
    (h : applyRuleResult r extract = Except.error e) :
    applyRulesStep extract acc r = acc := by
  unfold applyRulesStep
  rw [h]

theorem applyRulesStep_ok (extract : PageExtract) (acc : FieldMap)
    (r : ParserRule) (value : Value)
    (h : applyRuleResult r extract = Except.ok value) :
    applyRulesStep extract acc r =
      if value != Value.null then setVal acc r.name value else acc := by
  unfold applyRulesStep
  rw [h]

theorem applyRules_foldl_no_null (extract : PageExtract)
    (rules : List ParserRule) (acc : FieldMap)
    (hacc : ∀ p ∈ acc, p.2 ≠ Value.null) :
    ∀ p ∈ List.foldl (applyRulesStep extract) acc rules, p.2 ≠ Value.null := by
  induction rules generalizing acc with
  | nil => exact hacc
  | cons r rest ih =>
    apply ih
    intro p hp
    cases hres : applyRuleResult r extract with
    | error e =>
      rw [applyRulesStep_error extract acc r e hres] at hp
      exact hacc p hp
    | ok value =>
      rw [applyRulesStep_ok extract acc r value hres] at hp
      by_cases hv : (value != Value.null) = true
      · rw [if_pos hv] at hp
        rcases mem_setVal _ _ _ _ hp with h1 | h2
        · exact hacc p h1
        · rw [h2.2]
          exact bne_iff_ne.mp hv
      · rw [if_neg hv] at hp
        exact hacc p hp

/-- C6: a rule whose evaluation throws (modelled by `Except.error`, e.g. a
throwing `transform`) or yields `null`/`undefined` contributes nothing and
does not disturb the evaluation of the surrounding rules; and no entry of
any `applyRules` output carries a `null` value. -/
theorem rule_failure_isolation (extract : PageExtract)
    (l₁ l₂ : List ParserRule) (r : ParserRule)
    (hfail : (∃ e, applyRuleResult r extract = Except.error e) ∨
      applyRuleResult r extract = Except.ok Value.null) :
    applyRules extract (l₁ ++ r :: l₂) = applyRules extract (l₁ ++ l₂) ∧
    (∀ rules : List ParserRule, ∀ p ∈ applyRules extract rules,
      p.2 ≠ Value.null) := by
  constructor
  · unfold applyRules
    rw [List.foldl_append, List.foldl_append, List.foldl_cons]
    congr 1
    rcases hfail with ⟨e, he⟩ | hnull
    · exact applyRulesStep_error extract _ r e he
    · rw [applyRulesStep_ok extract _ r Value.null hnull]
      simp
  · intro rules p hp
    exact applyRules_foldl_no_null extract rules [] (by simp) p hp

/-- A concrete page extract for the rule-isolation witness. -/
def extractW : PageExtract :=
  { text := "price 3\nxyzfield here"
    headings := ["Main Heading"]
    links := []
    images := [] }

/-- A rule whose `transform` callback throws. -/
def throwingRule : ParserRule :=
  { name := "xyzfield", transform := some (fun _ => Except.error "boom") }

/-- The plain title rule used by the rule-isolation witness. -/
def titleRuleW : ParserRule := { name := "title" }

/-- C6 (witness): dropping the throwing rule leaves the other rules'
output untouched, and the output has no null values. -/
theorem rule_failure_isolation_witness :
    applyRules extractW ([titleRuleW] ++ throwingRule :: []) =
      applyRules extractW ([titleRuleW] ++ []) ∧
    (∀ p ∈ applyRules extractW [titleRuleW, throwingRule],
      p.2 ≠ Value.null) := by
  have h := rule_failure_isolation extractW [titleRuleW] [] throwingRule
    (Or.inl ⟨"boom", rfl⟩)
  exact ⟨h.1, fun p hp => h.2 [titleRuleW, throwingRule] p hp⟩

/-! ### The title rule -/

/-- Spec wording: the first non-empty heading of the headings sequence. -/
def firstNonEmptyHeading (headings : List String) : Option String :=
  headings.find? (fun h => !strIsEmpty h)

/-- Spec wording: the first non-blank line of the body text (trimmed),
`null` when every line is blank. -/
def specFirstNonBlankLine (text : String) : Value :=
  match (jsSplitNl text).find? (fun line => !strIsEmpty (jsTrim line)) with
  | some l => .str (jsTrim l)
  | none => .null

theorem head_filter_eq_find (p : α → Bool) (l : List α) :
    (l.filter p).head? = l.find? p := by
  induction l with
  | nil => rfl
  | cons a rest ih =>
    cases h : p a
    · rw [List.filter_cons_of_neg (by simp [h]),
        List.find?_cons_of_neg _ (by simp [h])]
      exact ih
    · rw [List.filter_cons_of_pos (by simp [h]),
        List.find?_cons_of_pos _ (by simp [h])]
      rfl

theorem extractTitle_eq_spec (text : String) :
    extractTitle text = specFirstNonBlankLine text := by
  unfold extractTitle specFirstNonBlankLine
  simp only []
  rw [head_filter_eq_find]
  cases h : (jsSplitNl text).find? (fun line => !strIsEmpty (jsTrim line)) with
  | none => rfl
  | some l =>
    have hl := List.find?_some h
    have hne : strIsEmpty (jsTrim l) = false := by simpa using hl
    simp [hne]

/-- C8 (counterexample): with headings `["", "Heading"]` the first
non-empty heading is `"Heading"`, but the title rule reads only
`headings[0]`, finds it falsy, and falls back to the body text — the rule
does not yield the first non-empty heading. -/
theorem title_ignores_later_headings :
    firstNonEmptyHeading ["", "Heading"] = some "Heading" ∧
    extractByRule titleRuleW "Body line" ["", "Heading"]
      { text := "Body line", headings := ["", "Heading"], links := [], images := [] }
      = Value.str "Body line" ∧
    Value.str "Body line" ≠ Value.str "Heading" := by
  refine ⟨by decide, by decide, by decide⟩

/-- C8 (amended): the title rule yields the first heading exactly when the
headings list starts with a non-empty string; otherwise (no headings, or an
empty first heading — later headings are never consulted) it yields the
first non-blank line of the body text, trimmed, or null when there is
none. -/
theorem title_rule_semantics (rule : ParserRule) (text : String)
    (headings : List String) (extract : PageExtract)
    (hname : rule.name = "title") :
    (∀ h rest, headings = h :: rest → h ≠ "" →
      extractByRule rule text headings extract = Value.str h) ∧
    ((headings = [] ∨ (∃ rest, headings = "" :: rest)) →
      extractByRule rule text headings extract = specFirstNonBlankLine text) := by
  constructor
  · rintro h rest rfl hne
    unfold extractByRule
    rw [if_pos hname]
    simp only [List.head?_cons]
    have he : strIsEmpty h = false := strIsEmpty_eq_false_of_ne h hne
    simp [he]
  · rintro (rfl | ⟨rest, rfl⟩)
    · unfold extractByRule
      rw [if_pos hname]
      simp only [List.head?_nil]
      exact extractTitle_eq_spec text
    · unfold extractByRule
      rw [if_pos hname]
      simp only [List.head?_cons]
      have he : strIsEmpty "" = true := rfl
      simp [he, extractTitle_eq_spec]

/-- C8 (witness): a non-empty first heading is returned as the title; an
empty first heading falls back to the first non-blank body line. -/
theorem title_rule_semantics_witness :
    extractByRule titleRuleW "ignored" ["Main Heading"] extractW =
      Value.str "Main Heading" ∧
    extractByRule titleRuleW " \nBody here" [""] extractW =
      specFirstNonBlankLine " \nBody here" := by
  have h1 := title_rule_semantics titleRuleW "ignored" ["Main Heading"] extractW rfl
  have h2 := title_rule_semantics titleRuleW " \nBody here" [""] extractW rfl
  exact ⟨h1.1 "Main Heading" [] rfl (by decide), h2.2 (Or.inr ⟨[], rfl⟩)⟩

/-! ### Per-URL error-handling asymmetry -/

/-- C4: an internal failure of the hybrid path (the scrape collaborator
rejecting) degrades to the parser result tagged `parser` with the
explanatory note, while the same failure in the LLM-only path is rethrown
and surfaces at `processUrl` as a per-URL `failed` result.  The branch
hypotheses put `processUrl` in the LLM-only branch. -/
theorem error_handling_asymmetry (url instr e : String) (pr : ParsedContent)
    (ewf : String → String → String → LLMExtractionResult)
    (gs : FieldMap → String → String → String)
    (oinstr : Option String)
    (hllm : shouldUseLLM pr oinstr = false)
    (hgood : pr.success = false ∨ pr.confidence ≤ 3/5) :
    (hybridExtraction url pr instr (Except.error e) ewf gs).source =
      ExtractionSource.parser ∧
    (hybridExtraction url pr instr (Except.error e) ewf gs).content = pr.data ∧
    (hybridExtraction url pr instr (Except.error e) ewf gs).explanation =
      some "Hybrid extraction failed, using parser results" ∧
    llmOnlyExtraction url instr (Except.error e) ewf =
      Except.error ("LLM extraction failed: " ++ e) ∧
    (processUrl url pr oinstr (Except.error e) ewf gs).source =
      ExtractionSource.failed := by
  refine ⟨rfl, rfl, rfl, rfl, ?_⟩
  unfold processUrl
  simp only []
  rw [hllm]
  simp only [Bool.false_and, Bool.false_eq_true, if_false]
  unfold processUrlTail
  have hcond : (pr.success && decide (pr.confidence > 3/5)) = false := by
    rcases hgood with hs | hc
    · simp [hs]
    · simp [decide_eq_false (not_lt.mpr hc)]
  rw [hcond]
  simp only [Bool.false_eq_true, if_false]
  rfl

/-- A parse outcome that forces the LLM-only branch (confidence not above
0.6, no instruction). -/
def parserOutcomeW2 : ParsedContent :=
  { success := true
    data := [("title", Value.str "T")]
    confidence := 1/2
    htmlContext := "ctx" }

/-- A stub for the never-throwing `extractWithFallback` collaborator. -/
def ewfW : String → String → String → LLMExtractionResult :=
  fun _ _ _ => { data := [], confidence := 0, explanation := "none" }

/-- A stub for the never-throwing summary collaborator. -/
def gsW : FieldMap → String → String → String := fun _ _ _ => "summary"

/-- C4 (witness): a failing scrape degrades the hybrid path to `parser`,
makes the LLM-only path rethrow, and yields `failed` from `processUrl` in
the LLM-only branch. -/
theorem error_handling_asymmetry_witness :
    (hybridExtraction "https://x.example" parserOutcomeW2 "get price"
      (Except.error "network down") ewfW gsW).source = ExtractionSource.parser ∧
    llmOnlyExtraction "https://x.example" "get price"
      (Except.error "network down") ewfW =
      Except.error ("LLM extraction failed: " ++ "network down") ∧
    (processUrl "https://x.example" parserOutcomeW2 none
      (Except.error "network down") ewfW gsW).source = ExtractionSource.failed := by
  have h := error_handling_asymmetry "https://x.example" "get price"
    "network down" parserOutcomeW2 ewfW gsW none rfl
    (Or.inr (by norm_num [parserOutcomeW2]))
  exact ⟨h.1, h.2.2.2.1, h.2.2.2.2⟩

/-! ### URL expansion -/

theorem foldl_congr_fun {α β : Type} (f g : α → β → α) (a : α) (l : List β)
    (h : ∀ x y, f x y = g x y) : l.foldl f a = l.foldl g a := by
  induction l generalizing a with
  | nil => rfl
  | cons b rest ih => rw [List.foldl_cons, List.foldl_cons, h, ih]

theorem dedupFirst_foldl_nodup (l : List String) (acc : List String)
    (hacc : acc.Nodup) :
    (l.foldl (fun acc x => if x ∈ acc then acc else acc ++ [x]) acc).Nodup := by
  induction l generalizing acc with
  | nil => exact hacc
  | cons x rest ih =>
    rw [List.foldl_cons]
    apply ih
    by_cases hx : x ∈ acc
    · rw [if_pos hx]; exact hacc
    · rw [if_neg hx]
      refine List.Nodup.append hacc (List.nodup_singleton x) ?_
      intro b hb hb'
      exact hx ((List.mem_singleton.mp hb') ▸ hb)

theorem dedupFirst_nodup (l : List String) : (dedupFirst l).Nodup :=
  dedupFirst_foldl_nodup l [] (by simp)

theorem nodup_dedup_take (l : List String) (k : Nat) :
    ((dedupFirst l).take k).Nodup :=
  (List.take_sublist k (dedupFirst l)).nodup (dedupFirst_nodup l)

theorem length_dedup_take (l : List String) (k : Nat) :
    ((dedupFirst l).take k).length ≤ k := by
  rw [List.length_take]
  exact min_le_left _ _

/-- C10 (counterexample): with `maxPages = 0` the claimed bound
`length ≤ maxPages` fails — JS `maxPages || 50` treats 0 as unset, so one
target URL survives the truncation. -/
theorem url_expansion_zero_maxpages :
    expandUrls false (some 0) (fun _ => Except.error "scrape failed")
      ["https://a.example"] = ["https://a.example"] ∧
    ¬((expandUrls false (some 0) (fun _ => Except.error "scrape failed")
      ["https://a.example"]).length ≤ 0) := by
  constructor
  · rfl
  · decide

/-- C10 (amended): the expansion has no duplicates; its length is at most
`maxPages` when that is set to a positive value and at most 50 when it is
unset or set to 0 (JS `||` conflates the two); and a pagination-scrape
failure for one target URL leaves the expansion identical to the one where
that URL contributes no pagination links — only itself. -/
theorem url_expansion (fp : Bool) (mp : Option Nat)
    (scrapeLinks : String → Except String (List String))
    (targetUrls : List String) :
    (expandUrls fp mp scrapeLinks targetUrls).Nodup ∧
    (∀ n : Nat, mp = some n → 0 < n →
      (expandUrls fp mp scrapeLinks targetUrls).length ≤ n) ∧
    ((mp = none ∨ mp = some 0) →
      (expandUrls fp mp scrapeLinks targetUrls).length ≤ 50) ∧
    (∀ u e, scrapeLinks u = Except.error e →
      expandUrls fp mp scrapeLinks targetUrls =
        expandUrls fp mp
          (fun x => if x = u then Except.ok [] else scrapeLinks x)
          targetUrls) := by
  refine ⟨nodup_dedup_take _ _, ?_, ?_, ?_⟩
  · intro n hmp hpos
    subst hmp
    have hj : jsOrNat (some n) 50 = n := by
      show (if (n == 0) = true then 50 else n) = n
      rw [if_neg (by simpa using Nat.pos_iff_ne_zero.mp hpos)]
    refine le_trans ?_ (le_of_eq hj)
    exact length_dedup_take _ _
  · rintro (rfl | rfl) <;> exact length_dedup_take _ _
  · intro u e hse
    unfold expandUrls
    simp only []
    refine congrArg (fun l => (dedupFirst l).take (jsOrNat mp 50)) ?_
    apply foldl_congr_fun
    intro acc url
    by_cases huu : url = u
    · subst huu
      simp [handlePagination, hse]
    · simp [huu]

/-- The pagination-scrape stub of the expansion witness: target `a` has
pagination links, target `b` fails. -/
def scrapeW : String → Except String (List String) :=
  fun u => if u = "a" then Except.ok ["page2", "zzz"] else Except.error "fail"

/-- C10 (witness): a three-target expansion with one duplicate target and
one failing pagination scrape — deduplicated, bounded by `maxPages = 3`,
and unchanged when the failing URL is replaced by an empty link list. -/
theorem url_expansion_witness :
    (expandUrls true (some 3) scrapeW ["a", "b", "a"]).Nodup ∧
    (expandUrls true (some 3) scrapeW ["a", "b", "a"]).length ≤ 3 ∧
    expandUrls true (some 3) scrapeW ["a", "b", "a"] =
      expandUrls true (some 3)
        (fun x => if x = "b" then Except.ok [] else scrapeW x) ["a", "b", "a"] := by
  have h := url_expansion true (some 3) scrapeW ["a", "b", "a"]
  exact ⟨h.1, h.2.1 3 rfl (by decide), h.2.2.2 "b" "fail" rfl⟩

end WebIntel
